import Mathlib

/-!
Verification development for the ChessPlusPlus board core
(src/board/Board.hpp, with src/piece/Rook.hpp and src/res/ResourceManager.hpp).

The board state is shallowly embedded: the C++ `std::map<Position_t,
std::unique_ptr<Piece>>` position table becomes an association list from
squares to piece records, the `std::multimap` capture relation becomes a
list of (piece-identity, square) pairs in insertion order (the multimap key
is an iterator into the pieces map, i.e. it denotes the piece object; we
represent that identity by a natural-number id carried in the piece record),
and the type-indexed interaction registry becomes an association list keyed
by a numeric type tag.  A concrete piece variant's virtual
`calcTrajectory` examines the board through read-only queries and calls the
protected registration primitives; we embed a variant's rule as a function
from the piece's own position, its suit and a read-only view of the board
(dimensions plus the position -> suit occupancy) to the list of primitive
registration calls it performs.
-/

namespace ChessPP

/-- A board square: `Position_t`, a pair of integral coordinates. -/
structure Sq where
  x : Int
  y : Int
deriving DecidableEq

/-- Read-only view of a board that a piece's rule hook may consult:
bounds (width/height) and occupancy with the occupant's suit. -/
structure RView where
  w : Int
  h : Int
  occ : List (Sq × Nat)
deriving DecidableEq

/-- The protected registration primitives of `Board::Piece`
(Board.hpp lines 67-114) that a variant's `calcTrajectory` may invoke. -/
inductive PrimCall where
  | addTraj (tile : Sq)
  | removeTraj (tile : Sq)
  | addCapt (tile : Sq)
  | removeCapt (tile : Sq)
  | addCapturable (tile : Sq)
  | removeCapturable (tile : Sq)
deriving DecidableEq

/-- A concrete variant's `calcTrajectory` body: given the piece's own
position, its suit and a read-only board view, the sequence of
registration-primitive calls it performs. -/
abbrev Rule : Type := Sq → Nat → RView → List PrimCall

/-- The state of one `Board::Piece`: current position `p`, suit `s`,
trajectory and capturing sets (C++ `std::set<Position_t>` members `traj`
and `capt`), move counter `movenum`, plus a stable identity `id`
(standing for the C++ object identity / pieces-map iterator used as the
capture-relation key) and the variant's rule hook. -/
structure PieceSt where
  id : Nat
  p : Sq
  s : Nat
  traj : Finset Sq
  capt : Finset Sq
  movenum : Nat
  rule : Rule

/-- An entry of the interaction registry: its type tag, a creation stamp
standing for C++ object identity, and the rule-scoped mutable state. -/
structure InteractionInst where
  tag : Nat
  instId : Nat
  st : Int
deriving DecidableEq

/-- The `Board` state: configured dimensions, the position table
(`Pieces_t`), the capture relation (`Captures_t`, in insertion order),
the interaction registry (`Interactions_t`) and a counter used to stamp
newly constructed interaction instances with a fresh identity. -/
structure Board where
  width : Int
  height : Int
  pieces : List (Sq × PieceSt)
  captures : List (Nat × Sq)
  interactions : List (Nat × InteractionInst)
  nextInstId : Nat

/-- Association-list lookup (the embedding of `std::map::find`). -/
def alookup {κ α : Type} [DecidableEq κ] : List (κ × α) → κ → Option α
  | [], _ => none
  | e :: rest, q => if e.1 = q then some e.2 else alookup rest q

/-- Association-list insert-or-overwrite (the embedding of
`std::map::operator[]` followed by assignment). -/
def ainsert {κ α : Type} [DecidableEq κ] (q : κ) (v : α) : List (κ × α) → List (κ × α)
  | [] => [(q, v)]
  | e :: rest => if e.1 = q then (q, v) :: rest else e :: ainsert q v rest

/-- Association-list erase by key (the embedding of `std::map::erase`). -/
def aerase {κ α : Type} [DecidableEq κ] (q : κ) : List (κ × α) → List (κ × α)
  | [] => []
  | e :: rest => if e.1 = q then rest else e :: aerase q rest

/-- Update the mapped value at a key in place, if present. -/
def aupdate {κ α : Type} [DecidableEq κ] (q : κ) (f : α → α) : List (κ × α) → List (κ × α)
  | [] => []
  | e :: rest => if e.1 = q then (e.1, f e.2) :: rest else e :: aupdate q f rest

/-- `Board::valid` (Board.hpp lines 252-255): a position is valid iff it
lies within the origin-anchored rectangle of the configured board size,
i.e. `0 <= x < width` and `0 <= y < height`. -/
def Board.valid (b : Board) (q : Sq) : Bool :=
  decide (0 ≤ q.x ∧ q.x < b.width ∧ 0 ≤ q.y ∧ q.y < b.height)

/-- `Piece::addTrajectory` (Board.hpp lines 67-73): insert the tile into
the trajectory set only when `board.valid(tile)`. -/
def addTrajectory (b : Board) (pc : PieceSt) (tile : Sq) : PieceSt :=
  if b.valid tile then { pc with traj := insert tile pc.traj } else pc

/-- `Piece::removeTrajectory` (Board.hpp lines 75-78): erase the tile from
the trajectory set, unconditionally. -/
def removeTrajectory (pc : PieceSt) (tile : Sq) : PieceSt :=
  { pc with traj := pc.traj.erase tile }

/-- `Piece::addCapturing` (Board.hpp lines 81-87): insert the tile into
the capturing set only when `board.valid(tile)`. -/
def addCapturing (b : Board) (pc : PieceSt) (tile : Sq) : PieceSt :=
  if b.valid tile then { pc with capt := insert tile pc.capt } else pc

/-- `Piece::removeCapturing` (Board.hpp lines 89-92): erase the tile from
the capturing set, unconditionally. -/
def removeCapturing (pc : PieceSt) (tile : Sq) : PieceSt :=
  { pc with capt := pc.capt.erase tile }

/-- `Piece::addCapturable` (Board.hpp lines 95-101): when the tile is
valid, insert an entry mapping this piece's identity
(`board.pieces.find(pos)`, an iterator denoting this piece, here its id)
to the tile into the board-wide capture relation.  A multimap insert
appends among entries of an equal key, so insertion order is kept. -/
def addCapturableB (b : Board) (pid : Nat) (tile : Sq) : Board :=
  if b.valid tile then { b with captures := b.captures ++ [(pid, tile)] } else b

/-- The loop body of `Piece::removeCapturable` (Board.hpp lines 103-114):
walk the entries of this piece's key in order and erase the first one
whose mapped square equals the tile, then break. -/
def removeFirstEntry (pid : Nat) (tile : Sq) : List (Nat × Sq) → List (Nat × Sq)
  | [] => []
  | e :: rest =>
      if e.1 = pid ∧ e.2 = tile then rest else e :: removeFirstEntry pid tile rest

/-- `Piece::removeCapturable` (Board.hpp lines 103-114) at board level. -/
def removeCapturableB (b : Board) (pid : Nat) (tile : Sq) : Board :=
  { b with captures := removeFirstEntry pid tile b.captures }

/-- Replace the piece stored at square `q` (if any) by `f` of it. -/
def Board.updatePieceAt (b : Board) (q : Sq) (f : PieceSt → PieceSt) : Board :=
  { b with pieces := aupdate q f b.pieces }

/-- Execute one registration-primitive call made by the rule hook of the
piece at square `q`, exactly as the corresponding protected member
function of `Board::Piece` does. -/
def Board.applyCall (b : Board) (q : Sq) : PrimCall → Board
  | .addTraj tile => b.updatePieceAt q (fun pc => addTrajectory b pc tile)
  | .removeTraj tile => b.updatePieceAt q (fun pc => removeTrajectory pc tile)
  | .addCapt tile => b.updatePieceAt q (fun pc => addCapturing b pc tile)
  | .removeCapt tile => b.updatePieceAt q (fun pc => removeCapturing pc tile)
  | .addCapturable tile =>
      match alookup b.pieces q with
      | some pc => addCapturableB b pc.id tile
      | none => b
  | .removeCapturable tile =>
      match alookup b.pieces q with
      | some pc => removeCapturableB b pc.id tile
      | none => b

/-- Execute a sequence of registration-primitive calls in order. -/
def Board.applyCalls (b : Board) (q : Sq) : List PrimCall → Board
  | [] => b
  | c :: rest => (b.applyCall q c).applyCalls q rest

/-- The read-only view a rule hook sees: bounds and the
position-to-suit occupancy derived from the position table. -/
def readView (b : Board) : RView :=
  ⟨b.width, b.height, b.pieces.map (fun e => (e.1, e.2.s))⟩

/-- `traj.clear(); capt.clear();` on one piece record. -/
def clearF (pc : PieceSt) : PieceSt :=
  { pc with traj := ∅, capt := ∅ }

/-- First statement of `Piece::makeTrajectory` (Board.hpp line 57-58):
`traj.clear(); capt.clear();` for the piece at `q`. -/
def clearStep (b : Board) (q : Sq) : Board :=
  b.updatePieceAt q clearF

/-- Second statement of `Piece::makeTrajectory` (Board.hpp line 59):
`addCapturable(pos);` — register the piece's own current square in the
board-wide capture relation (subject to the validity filter inside
`addCapturable`). -/
def addSelfStep (b : Board) (q : Sq) : Board :=
  match alookup b.pieces q with
  | some pc => addCapturableB b pc.id pc.p
  | none => b

/-- Third statement of `Piece::makeTrajectory` (Board.hpp line 60):
`calcTrajectory();` — run the variant's rule hook, which issues
registration-primitive calls computed from its read-only board view. -/
def calcStep (b : Board) (q : Sq) : Board :=
  match alookup b.pieces q with
  | some pc => b.applyCalls q (pc.rule pc.p pc.s (readView b))
  | none => b

/-- `Piece::makeTrajectory` (Board.hpp lines 55-61) for the piece stored
at square `q`: clear both derived sets, add the own square as capturable,
then invoke the rule hook. -/
def Board.makeTrajectoryAt (b : Board) (q : Sq) : Board :=
  calcStep (addSelfStep (clearStep b q) q) q

/-- The whole-board recomputation loop
(`for(auto it = pieces.begin(); it != pieces.end(); ++it)
it->second->makeTrajectory();`, Board.hpp lines 193-196): run
`makeTrajectory` for every piece of the table in turn. -/
def passOver (b : Board) : Board :=
  (b.pieces.map (fun e => e.1)).foldl Board.makeTrajectoryAt b

/-- The `Piece::tick` hook (Board.hpp lines 118-120) applied to every
piece.  The default `tick` is a no-op and every overriding body lives in
translation units absent from src/, so the embedded hook pass leaves the
board unchanged. -/
def Board.tickAll (b : Board) (_m : Sq) : Board := b

/-- Modelled from the spec: `Board::update` is declared at Board.hpp line
244 but its definition (Board.cpp) is not among the sources.  Per spec
sections 3-4: after a mutation the per-piece hooks run, then the global
recalculation pass rebuilds the Capture Relation from scratch —
every entry is discarded and every piece's derived state is recomputed. -/
def Board.update (b : Board) (m : Sq) : Board :=
  passOver { b.tickAll m with captures := [] }

/-- `Piece::move` (Board.hpp lines 123-130), the relocation part: set the
position to `to` and increment the move counter.  (Its `moveUpdate` hook
defaults to a no-op, and its trailing `makeTrajectory` call is applied at
board level by the caller.) -/
def PieceSt.moveP (pc : PieceSt) (dst : Sq) : PieceSt :=
  { pc with p := dst, movenum := pc.movenum + 1 }

/-- Modelled from the spec: `Board::move` is declared at Board.hpp line
249 but its definition (Board.cpp) is not among the sources.  Per spec
section 4.3: it succeeds only if `source` is occupied and `target` is in
that piece's current trajectory; on success the table entry is re-keyed
from `source` to `target`, the piece relocates through `Piece::move`
(which recalculates its own derived state), and the global
recalculation pass then runs; on failure nothing is mutated. -/
def Board.move (b : Board) (source target : Sq) : Bool × Board :=
  match alookup b.pieces source with
  | none => (false, b)
  | some pc =>
      if target ∈ pc.traj then
        (true,
          (({ b with pieces := ainsert target (pc.moveP target) (aerase source b.pieces) }
              : Board).makeTrajectoryAt target).update target)
      else (false, b)

/-- `Board::getInteraction<InteractionT>` (Board.hpp lines 200-210): if no
instance of the requested type tag exists, construct one (passing the
board to its constructor, embodied by `ctor` computing the initial state
from the board) and store it; return the stored instance. -/
def Board.getInteraction (b : Board) (t : Nat) (ctor : Board → Int) : InteractionInst × Board :=
  match alookup b.interactions t with
  | some inst => (inst, b)
  | none =>
      let inst : InteractionInst := ⟨t, b.nextInstId, ctor b⟩
      (inst,
        { b with
          interactions := ainsert t inst b.interactions
          nextInstId := b.nextInstId + 1 })

/-- `std::map::operator[]` on the position table: returns the stored
value for an existing key without modifying the table; for an absent key
it default-inserts (the default-constructed mapped value is stood in for
by an explicit `dflt` argument) and returns that. -/
def mapIndex (l : List (Sq × PieceSt)) (q : Sq) (dflt : PieceSt) :
    PieceSt × List (Sq × PieceSt) :=
  match alookup l q with
  | some v => (v, l)
  | none => (dflt, l ++ [(q, dflt)])

/-- `Board::at` (Board.hpp lines 212-220) with the state threaded
explicitly: `pieces.find(pos) == pieces.end()` returns null, otherwise
`pieces[pos]` is returned through `operator[]`. -/
def Board.atS (b : Board) (q : Sq) (dflt : PieceSt) : Option PieceSt × Board :=
  match alookup b.pieces q with
  | none => (none, b)
  | some _ =>
      let r := mapIndex b.pieces q dflt
      (some r.1, { b with pieces := r.2 })

/-- A fresh piece as produced by a factory constructor: the `Piece`
constructor (Board.hpp lines 37-49) stores position and suit; the
derived sets start empty and `movenum = 0` (member initializer,
Board.hpp line 40). -/
def mkPiece (pid : Nat) (q : Sq) (suit : Nat) (r : Rule) : PieceSt :=
  ⟨pid, q, suit, ∅, ∅, 0, r⟩

/-- The construction loop of `Board::Board` (Board.hpp lines 184-187):
for each layout slot, look the piece class up in the factory
(`factory.at`, which signals a lookup error on a missing key, embedded as
`Except.error`) and assign the constructed piece into the position table
via `operator[]` (overwriting any piece already at that square). -/
def buildTable (factory : List (Nat × Rule)) :
    List (Sq × Nat × Nat) → Nat → List (Sq × PieceSt) →
    Except Unit (List (Sq × PieceSt) × Nat)
  | [], n, acc => .ok (acc, n)
  | slot :: rest, n, acc =>
      match alookup factory slot.2.1 with
      | none => .error ()
      | some r =>
          buildTable factory rest (n + 1)
            (ainsert slot.1 (mkPiece n slot.1 slot.2.2 r) acc)

/-- `Board::Board` (Board.hpp lines 180-197): build the position table
from the layout through the factory — propagating the factory's lookup
error, in which case no board results — then run `makeTrajectory` for
every piece on the board. -/
def Board.construct (w h : Int) (layout : List (Sq × Nat × Nat))
    (factory : List (Nat × Rule)) : Except Unit Board :=
  match buildTable factory layout 0 [] with
  | .error e => .error e
  | .ok (tbl, _) => .ok (passOver ⟨w, h, tbl, [], [], 0⟩)

/-- Does some piece of the table carry identity `i`? -/
def Board.hasPieceWithId (b : Board) (i : Nat) : Bool :=
  b.pieces.any (fun e => e.2.id = i)

/-- Number of interaction-registry entries stored under type tag `t`. -/
def countKey (t : Nat) (l : List (Nat × InteractionInst)) : Nat :=
  (l.filter (fun e => e.1 = t)).length

/-- The capture-relation consistency invariant: every entry of the
board-wide capture relation is keyed by the identity of a piece
currently stored in the position table. -/
def CapOK (b : Board) : Prop :=
  ∀ e ∈ b.captures, ∃ q pc, alookup b.pieces q = some pc ∧ pc.id = e.1

/-- A concrete interaction constructor for witnesses. -/
def ctor3 : Board → Int := fun _ => 3

/-- Did a fallible computation succeed (the constructor completed rather
than propagating the factory's lookup error)? -/
def isOkE {ε α : Type} : Except ε α → Bool
  | .ok _ => true
  | .error _ => false

/-- A rule hook that registers nothing (a legitimate variant: the
contract lets `calcTrajectory` issue any number of primitive calls,
including none). -/
def rule0 : Rule := fun _ _ _ => []

/-- A rule hook that registers the square one above the piece as a
non-capturing destination. -/
def ruleUp : Rule := fun p _ _ => [PrimCall.addTraj ⟨p.x, p.y + 1⟩]

/-- Concrete piece for witnesses: identity 0, at the origin, suit 0. -/
def pc0 : PieceSt := ⟨0, ⟨0, 0⟩, 0, ∅, ∅, 0, rule0⟩

/-- Concrete 8x8 board holding only `pc0` at the origin. -/
def b0 : Board := ⟨8, 8, [(⟨0, 0⟩, pc0)], [], [], 0⟩

/-- Concrete piece whose trajectory already contains (0,1). -/
def pcW : PieceSt := ⟨0, ⟨0, 0⟩, 0, {⟨0, 1⟩}, ∅, 0, rule0⟩

/-- Concrete 8x8 board holding only `pcW` at the origin. -/
def bW : Board := ⟨8, 8, [(⟨0, 0⟩, pcW)], [], [], 0⟩

/-- The observable, derived-state-independent part of one piece record:
identity, position, suit and move counter (everything but the recomputed
sets and the rule closure). -/
def obsF (pc : PieceSt) : Nat × Sq × Nat × Nat :=
  (pc.id, pc.p, pc.s, pc.movenum)

/-- The observable part of a whole position table. -/
def obsMap (l : List (Sq × PieceSt)) : List (Sq × Nat × Sq × Nat × Nat) :=
  l.map (fun e => (e.1, obsF e.2))

/-- A layout with two entries at the same square (class 0, suits 0/1). -/
def layoutDup : List (Sq × Nat × Nat) := [(⟨0, 0⟩, 0, 0), (⟨0, 0⟩, 0, 1)]

/-- A one-entry layout placing class 0, suit 0 at the origin. -/
def layout1 : List (Sq × Nat × Nat) := [(⟨0, 0⟩, 0, 0)]

/-- A factory knowing only class 0, mapped to the no-op rule. -/
def factory0 : List (Nat × Rule) := [(0, rule0)]

/-- A factory knowing only class 0, mapped to the one-step-up rule. -/
def factoryUp : List (Nat × Rule) := [(0, ruleUp)]

/-! ### Association-list lemmas -/

theorem alookup_aupdate_self {κ α : Type} [DecidableEq κ] (q : κ) (f : α → α)
    (l : List (κ × α)) : alookup (aupdate q f l) q = (alookup l q).map f := by
  induction l with
  | nil => rfl
  | cons e rest ih =>
      by_cases h : e.1 = q
      · simp [aupdate, alookup, h]
      · simp [aupdate, alookup, h, ih]

theorem alookup_aupdate_ne {κ α : Type} [DecidableEq κ] (q q₂ : κ) (f : α → α)
    (l : List (κ × α)) (hne : q₂ ≠ q) :
    alookup (aupdate q f l) q₂ = alookup l q₂ := by
  induction l with
  | nil => rfl
  | cons e rest ih =>
      by_cases h : e.1 = q
      · have h2 : ¬ (q = q₂) := fun hc => hne hc.symm
        have h3 : ¬ (e.1 = q₂) := h ▸ h2
        simp [aupdate, alookup, h, h2, h3]
      · by_cases h2 : e.1 = q₂ <;> simp [aupdate, alookup, h, h2, ih, hne]

theorem aupdate_none {κ α : Type} [DecidableEq κ] (q : κ) (f : α → α)
    (l : List (κ × α)) (h : alookup l q = none) : aupdate q f l = l := by
  induction l with
  | nil => rfl
  | cons e rest ih =>
      by_cases he : e.1 = q
      · simp [alookup, he] at h
      · simp [alookup, he] at h
        simp [aupdate, he, ih h]

theorem aupdate_comp {κ α : Type} [DecidableEq κ] (q : κ) (f g : α → α)
    (l : List (κ × α)) :
    aupdate q g (aupdate q f l) = aupdate q (fun a => g (f a)) l := by
  induction l with
  | nil => rfl
  | cons e rest ih =>
      by_cases h : e.1 = q
      · simp [aupdate, h]
      · simp [aupdate, h, ih]

theorem aupdate_congr {κ α : Type} [DecidableEq κ] (q : κ) (f g : α → α)
    (l : List (κ × α)) (h : ∀ a, f a = g a) : aupdate q f l = aupdate q g l := by
  induction l with
  | nil => rfl
  | cons e rest ih =>
      by_cases he : e.1 = q <;> simp [aupdate, he, ih, h]

theorem map_aupdate {κ α β : Type} [DecidableEq κ] (q : κ) (f : α → α)
    (g : α → β) (l : List (κ × α)) (hg : ∀ a, g (f a) = g a) :
    (aupdate q f l).map (fun e => (e.1, g e.2)) = l.map (fun e => (e.1, g e.2)) := by
  induction l with
  | nil => rfl
  | cons e rest ih =>
      by_cases he : e.1 = q <;> simp [aupdate, he, ih, hg]

theorem aupdate_length {κ α : Type} [DecidableEq κ] (q : κ) (f : α → α)
    (l : List (κ × α)) : (aupdate q f l).length = l.length := by
  induction l with
  | nil => rfl
  | cons e rest ih =>
      by_cases he : e.1 = q <;> simp [aupdate, he, ih]

theorem alookup_ainsert_self {κ α : Type} [DecidableEq κ] (q : κ) (v : α)
    (l : List (κ × α)) : alookup (ainsert q v l) q = some v := by
  induction l with
  | nil => simp [ainsert, alookup]
  | cons e rest ih =>
      by_cases h : e.1 = q <;> simp [ainsert, alookup, h, ih]

theorem alookup_ainsert_ne {κ α : Type} [DecidableEq κ] (q q₂ : κ) (v : α)
    (l : List (κ × α)) (hne : q₂ ≠ q) :
    alookup (ainsert q v l) q₂ = alookup l q₂ := by
  have hqq : ¬ (q = q₂) := fun hc => hne hc.symm
  induction l with
  | nil => simp [ainsert, alookup, hqq]
  | cons e rest ih =>
      by_cases h : e.1 = q
      · have h3 : ¬ (e.1 = q₂) := h ▸ hqq
        simp [ainsert, alookup, h, hqq, h3]
      · by_cases h2 : e.1 = q₂ <;> simp [ainsert, alookup, h, h2, ih, hne, hqq]

theorem alookup_aerase_ne {κ α : Type} [DecidableEq κ] (q q₂ : κ)
    (l : List (κ × α)) (hne : q₂ ≠ q) :
    alookup (aerase q l) q₂ = alookup l q₂ := by
  have hqq : ¬ (q = q₂) := fun hc => hne hc.symm
  induction l with
  | nil => rfl
  | cons e rest ih =>
      by_cases h : e.1 = q
      · have h3 : ¬ (e.1 = q₂) := h ▸ hqq
        simp [aerase, alookup, h, hqq, h3]
      · by_cases h2 : e.1 = q₂ <;> simp [aerase, alookup, h, h2, ih, hne, hqq]

theorem alookup_map {κ α β : Type} [DecidableEq κ] (g : α → β) (q : κ)
    (l : List (κ × α)) :
    alookup (l.map (fun e => (e.1, g e.2))) q = (alookup l q).map g := by
  induction l with
  | nil => rfl
  | cons e rest ih =>
      by_cases h : e.1 = q <;> simp [alookup, h, ih]

theorem alookup_none_iff {κ α : Type} [DecidableEq κ] (q : κ) (l : List (κ × α)) :
    alookup l q = none ↔ ∀ v, (q, v) ∉ l := by
  induction l with
  | nil => simp [alookup]
  | cons e rest ih =>
      by_cases h : e.1 = q
      · subst h
        constructor
        · intro hc
          simp [alookup] at hc
        · intro hv
          exact absurd (List.mem_cons_self e rest)
            (by have := hv e.2; rwa [Prod.mk.eta] at this)
      · rw [show alookup (e :: rest) q = alookup rest q by simp [alookup, h], ih]
        constructor
        · intro hv v hmem
          rcases List.mem_cons.mp hmem with hc | hc
          · exact h (congrArg Prod.fst hc).symm
          · exact hv v hc
        · intro hv v hmem
          exact hv v (List.mem_cons_of_mem _ hmem)

theorem alookup_mem {κ α : Type} [DecidableEq κ] {q : κ} {v : α}
    {l : List (κ × α)} (h : alookup l q = some v) : (q, v) ∈ l := by
  induction l with
  | nil => simp [alookup] at h
  | cons e rest ih =>
      by_cases he : e.1 = q
      · subst he
        simp [alookup] at h
        subst h
        exact List.mem_cons_self _ _
      · simp [alookup, he] at h
        exact List.mem_cons_of_mem _ (ih h)

/-! ### Extensionality helpers -/

theorem pieceEqOfFields {a b : PieceSt} (h1 : a.id = b.id) (h2 : a.p = b.p)
    (h3 : a.s = b.s) (h4 : a.traj = b.traj) (h5 : a.capt = b.capt)
    (h6 : a.movenum = b.movenum) (h7 : a.rule = b.rule) : a = b := by
  cases a; cases b
  simp only at h1 h2 h3 h4 h5 h6 h7
  subst h1; subst h2; subst h3; subst h4; subst h5; subst h6; subst h7
  rfl

theorem boardEqOfFields {a b : Board} (h1 : a.width = b.width)
    (h2 : a.height = b.height) (h3 : a.pieces = b.pieces)
    (h4 : a.captures = b.captures) (h5 : a.interactions = b.interactions)
    (h6 : a.nextInstId = b.nextInstId) : a = b := by
  cases a; cases b
  simp only at h1 h2 h3 h4 h5 h6
  subst h1; subst h2; subst h3; subst h4; subst h5; subst h6
  rfl

/-! ### Frame lemmas: which fields each operation leaves untouched -/

theorem addCapturableB_frame (b : Board) (pid : Nat) (tile : Sq) :
    (addCapturableB b pid tile).width = b.width
    ∧ (addCapturableB b pid tile).height = b.height
    ∧ (addCapturableB b pid tile).pieces = b.pieces
    ∧ (addCapturableB b pid tile).interactions = b.interactions
    ∧ (addCapturableB b pid tile).nextInstId = b.nextInstId := by
  unfold addCapturableB
  split <;> exact ⟨rfl, rfl, rfl, rfl, rfl⟩

theorem applyCall_frame (b : Board) (q : Sq) (c : PrimCall) :
    (b.applyCall q c).width = b.width
    ∧ (b.applyCall q c).height = b.height
    ∧ (b.applyCall q c).interactions = b.interactions
    ∧ (b.applyCall q c).nextInstId = b.nextInstId := by
  cases c with
  | addTraj tile => exact ⟨rfl, rfl, rfl, rfl⟩
  | removeTraj tile => exact ⟨rfl, rfl, rfl, rfl⟩
  | addCapt tile => exact ⟨rfl, rfl, rfl, rfl⟩
  | removeCapt tile => exact ⟨rfl, rfl, rfl, rfl⟩
  | addCapturable tile =>
      simp only [Board.applyCall]
      cases alookup b.pieces q with
      | none => exact ⟨rfl, rfl, rfl, rfl⟩
      | some pc =>
          have h := addCapturableB_frame b pc.id tile
          exact ⟨h.1, h.2.1, h.2.2.2.1, h.2.2.2.2⟩
  | removeCapturable tile =>
      simp only [Board.applyCall]
      cases alookup b.pieces q with
      | none => exact ⟨rfl, rfl, rfl, rfl⟩
      | some pc => exact ⟨rfl, rfl, rfl, rfl⟩

theorem applyCalls_frame (cs : List PrimCall) (b : Board) (q : Sq) :
    (b.applyCalls q cs).width = b.width
    ∧ (b.applyCalls q cs).height = b.height
    ∧ (b.applyCalls q cs).interactions = b.interactions
    ∧ (b.applyCalls q cs).nextInstId = b.nextInstId := by
  induction cs generalizing b with
  | nil => exact ⟨rfl, rfl, rfl, rfl⟩
  | cons c rest ih =>
      have h1 := applyCall_frame b q c
      have h2 := ih (b.applyCall q c)
      exact ⟨h2.1.trans h1.1, h2.2.1.trans h1.2.1,
        h2.2.2.1.trans h1.2.2.1, h2.2.2.2.trans h1.2.2.2⟩

theorem clearStep_frame (b : Board) (q : Sq) :
    (clearStep b q).width = b.width
    ∧ (clearStep b q).height = b.height
    ∧ (clearStep b q).captures = b.captures
    ∧ (clearStep b q).interactions = b.interactions
    ∧ (clearStep b q).nextInstId = b.nextInstId :=
  ⟨rfl, rfl, rfl, rfl, rfl⟩

theorem addSelfStep_frame (b : Board) (q : Sq) :
    (addSelfStep b q).width = b.width
    ∧ (addSelfStep b q).height = b.height
    ∧ (addSelfStep b q).pieces = b.pieces
    ∧ (addSelfStep b q).interactions = b.interactions
    ∧ (addSelfStep b q).nextInstId = b.nextInstId := by
  unfold addSelfStep
  cases alookup b.pieces q with
  | none => exact ⟨rfl, rfl, rfl, rfl, rfl⟩
  | some pc => exact addCapturableB_frame b pc.id pc.p

theorem calcStep_frame (b : Board) (q : Sq) :
    (calcStep b q).width = b.width
    ∧ (calcStep b q).height = b.height
    ∧ (calcStep b q).interactions = b.interactions
    ∧ (calcStep b q).nextInstId = b.nextInstId := by
  unfold calcStep
  cases alookup b.pieces q with
  | none => exact ⟨rfl, rfl, rfl, rfl⟩
  | some pc => exact applyCalls_frame _ b q

theorem makeTrajectoryAt_frame (b : Board) (q : Sq) :
    (b.makeTrajectoryAt q).width = b.width
    ∧ (b.makeTrajectoryAt q).height = b.height
    ∧ (b.makeTrajectoryAt q).interactions = b.interactions
    ∧ (b.makeTrajectoryAt q).nextInstId = b.nextInstId := by
  have h1 := clearStep_frame b q
  have h2 := addSelfStep_frame (clearStep b q) q
  have h3 := calcStep_frame (addSelfStep (clearStep b q) q) q
  exact ⟨h3.1.trans (h2.1.trans h1.1), h3.2.1.trans (h2.2.1.trans h1.2.1),
    h3.2.2.1.trans (h2.2.2.2.1.trans h1.2.2.2.1),
    h3.2.2.2.trans (h2.2.2.2.2.trans h1.2.2.2.2)⟩

theorem foldMk_frame (ks : List Sq) (b : Board) :
    (ks.foldl Board.makeTrajectoryAt b).width = b.width
    ∧ (ks.foldl Board.makeTrajectoryAt b).height = b.height
    ∧ (ks.foldl Board.makeTrajectoryAt b).interactions = b.interactions
    ∧ (ks.foldl Board.makeTrajectoryAt b).nextInstId = b.nextInstId := by
  induction ks generalizing b with
  | nil => exact ⟨rfl, rfl, rfl, rfl⟩
  | cons k rest ih =>
      have h1 := makeTrajectoryAt_frame b k
      have h2 := ih (b.makeTrajectoryAt k)
      exact ⟨h2.1.trans h1.1, h2.2.1.trans h1.2.1,
        h2.2.2.1.trans h1.2.2.1, h2.2.2.2.trans h1.2.2.2⟩

theorem passOver_frame (b : Board) :
    (passOver b).width = b.width
    ∧ (passOver b).height = b.height
    ∧ (passOver b).interactions = b.interactions
    ∧ (passOver b).nextInstId = b.nextInstId := by
  unfold passOver
  exact foldMk_frame _ b

theorem update_frame (b : Board) (m : Sq) :
    (b.update m).width = b.width
    ∧ (b.update m).height = b.height
    ∧ (b.update m).interactions = b.interactions
    ∧ (b.update m).nextInstId = b.nextInstId :=
  passOver_frame _

/-! ### The registration primitives only touch the derived sets -/

theorem obsF_addTrajectory (b : Board) (tile : Sq) (a : PieceSt) :
    obsF (addTrajectory b a tile) = obsF a ∧ (addTrajectory b a tile).rule = a.rule := by
  unfold addTrajectory
  split <;> exact ⟨rfl, rfl⟩

theorem obsF_removeTrajectory (tile : Sq) (a : PieceSt) :
    obsF (removeTrajectory a tile) = obsF a ∧ (removeTrajectory a tile).rule = a.rule :=
  ⟨rfl, rfl⟩

theorem obsF_addCapturing (b : Board) (tile : Sq) (a : PieceSt) :
    obsF (addCapturing b a tile) = obsF a ∧ (addCapturing b a tile).rule = a.rule := by
  unfold addCapturing
  split <;> exact ⟨rfl, rfl⟩

theorem obsF_removeCapturing (tile : Sq) (a : PieceSt) :
    obsF (removeCapturing a tile) = obsF a ∧ (removeCapturing a tile).rule = a.rule :=
  ⟨rfl, rfl⟩

theorem obsF_clearF (a : PieceSt) :
    obsF (clearF a) = obsF a ∧ (clearF a).rule = a.rule :=
  ⟨rfl, rfl⟩

theorem obsMap_aupdate (q : Sq) (f : PieceSt → PieceSt)
    (l : List (Sq × PieceSt)) (hf : ∀ a, obsF (f a) = obsF a) :
    obsMap (aupdate q f l) = obsMap l :=
  map_aupdate q f obsF l hf

theorem obsMap_applyCall (b : Board) (q : Sq) (c : PrimCall) :
    obsMap (b.applyCall q c).pieces = obsMap b.pieces := by
  cases c with
  | addTraj tile =>
      exact obsMap_aupdate q _ b.pieces (fun a => (obsF_addTrajectory b tile a).1)
  | removeTraj tile =>
      exact obsMap_aupdate q _ b.pieces (fun a => (obsF_removeTrajectory tile a).1)
  | addCapt tile =>
      exact obsMap_aupdate q _ b.pieces (fun a => (obsF_addCapturing b tile a).1)
  | removeCapt tile =>
      exact obsMap_aupdate q _ b.pieces (fun a => (obsF_removeCapturing tile a).1)
  | addCapturable tile =>
      simp only [Board.applyCall]
      cases alookup b.pieces q with
      | none => rfl
      | some pc => rw [(addCapturableB_frame b pc.id tile).2.2.1]
  | removeCapturable tile =>
      simp only [Board.applyCall]
      cases alookup b.pieces q with
      | none => rfl
      | some pc => rfl

theorem obsMap_applyCalls (cs : List PrimCall) (b : Board) (q : Sq) :
    obsMap (b.applyCalls q cs).pieces = obsMap b.pieces := by
  induction cs generalizing b with
  | nil => rfl
  | cons c rest ih =>
      exact (ih (b.applyCall q c)).trans (obsMap_applyCall b q c)

theorem obsMap_makeTrajectoryAt (b : Board) (q : Sq) :
    obsMap (b.makeTrajectoryAt q).pieces = obsMap b.pieces := by
  unfold Board.makeTrajectoryAt
  have h1 : obsMap (clearStep b q).pieces = obsMap b.pieces :=
    obsMap_aupdate q _ b.pieces (fun a => (obsF_clearF a).1)
  have h2 : (addSelfStep (clearStep b q) q).pieces = (clearStep b q).pieces :=
    (addSelfStep_frame _ q).2.2.1
  have h3 : obsMap (calcStep (addSelfStep (clearStep b q) q) q).pieces
      = obsMap (addSelfStep (clearStep b q) q).pieces := by
    unfold calcStep
    cases alookup (addSelfStep (clearStep b q) q).pieces q with
    | none => rfl
    | some pc => exact obsMap_applyCalls _ _ q
  rw [h3, h2, h1]

theorem obsMap_foldMk (ks : List Sq) (b : Board) :
    obsMap ((ks.foldl Board.makeTrajectoryAt b).pieces) = obsMap b.pieces := by
  induction ks generalizing b with
  | nil => rfl
  | cons k rest ih =>
      exact (ih (b.makeTrajectoryAt k)).trans (obsMap_makeTrajectoryAt b k)

theorem obsMap_passOver (b : Board) :
    obsMap (passOver b).pieces = obsMap b.pieces := by
  unfold passOver
  exact obsMap_foldMk _ b

theorem obsMap_update (b : Board) (m : Sq) :
    obsMap (b.update m).pieces = obsMap b.pieces := by
  unfold Board.update
  exact obsMap_passOver _

/-- Transport a lookup along an `obsMap` equality: the same squares are
occupied and the observables of the occupant agree. -/
theorem alookup_of_obsMap {l l2 : List (Sq × PieceSt)}
    (h : obsMap l2 = obsMap l) (q : Sq) :
    (alookup l2 q).map obsF = (alookup l q).map obsF := by
  have h1 := alookup_map (κ := Sq) obsF q l2
  have h2 := alookup_map (κ := Sq) obsF q l
  rw [← h1, ← h2]
  unfold obsMap at h
  rw [h]

theorem obsF_fields {a b : PieceSt} (h : obsF a = obsF b) :
    a.id = b.id ∧ a.p = b.p ∧ a.s = b.s ∧ a.movenum = b.movenum := by
  unfold obsF at h
  exact ⟨congrArg (fun x => x.1) h, congrArg (fun x => x.2.1) h,
    congrArg (fun x => x.2.2.1) h, congrArg (fun x => x.2.2.2) h⟩

/-! ### Clearing absorbs any prior derived-set edits -/

theorem clearF_absorb {f : PieceSt → PieceSt}
    (hf : ∀ a, obsF (f a) = obsF a ∧ (f a).rule = a.rule) (a : PieceSt) :
    clearF (f a) = clearF a := by
  obtain ⟨ho, hr⟩ := hf a
  obtain ⟨h1, h2, h3, h4⟩ := obsF_fields ho
  exact pieceEqOfFields h1 h2 h3 rfl rfl h4 hr

theorem aupdate_clearF_applyCall (b : Board) (q : Sq) (c : PrimCall) :
    aupdate q clearF (b.applyCall q c).pieces = aupdate q clearF b.pieces := by
  cases c with
  | addTraj tile =>
      show aupdate q clearF (aupdate q _ b.pieces) = _
      rw [aupdate_comp]
      exact aupdate_congr q _ _ b.pieces
        (fun a => clearF_absorb (obsF_addTrajectory b tile) a)
  | removeTraj tile =>
      show aupdate q clearF (aupdate q _ b.pieces) = _
      rw [aupdate_comp]
      exact aupdate_congr q _ _ b.pieces
        (fun a => clearF_absorb (obsF_removeTrajectory tile) a)
  | addCapt tile =>
      show aupdate q clearF (aupdate q _ b.pieces) = _
      rw [aupdate_comp]
      exact aupdate_congr q _ _ b.pieces
        (fun a => clearF_absorb (obsF_addCapturing b tile) a)
  | removeCapt tile =>
      show aupdate q clearF (aupdate q _ b.pieces) = _
      rw [aupdate_comp]
      exact aupdate_congr q _ _ b.pieces
        (fun a => clearF_absorb (obsF_removeCapturing tile) a)
  | addCapturable tile =>
      simp only [Board.applyCall]
      cases alookup b.pieces q with
      | none => rfl
      | some pc => rw [(addCapturableB_frame b pc.id tile).2.2.1]
  | removeCapturable tile =>
      simp only [Board.applyCall]
      cases alookup b.pieces q with
      | none => rfl
      | some pc => rfl

theorem aupdate_clearF_applyCalls (cs : List PrimCall) (b : Board) (q : Sq) :
    aupdate q clearF (b.applyCalls q cs).pieces = aupdate q clearF b.pieces := by
  induction cs generalizing b with
  | nil => rfl
  | cons c rest ih =>
      exact (ih (b.applyCall q c)).trans (aupdate_clearF_applyCall b q c)

/-! ### The position-table evolution is determined by table and bounds -/

theorem valid_congr {b b2 : Board} (hw : b.width = b2.width)
    (hh : b.height = b2.height) (t : Sq) : b.valid t = b2.valid t := by
  unfold Board.valid
  rw [hw, hh]

theorem applyCall_pieces_congr {b b2 : Board} (hp : b.pieces = b2.pieces)
    (hw : b.width = b2.width) (hh : b.height = b2.height) (q : Sq) (c : PrimCall) :
    (b.applyCall q c).pieces = (b2.applyCall q c).pieces := by
  cases c with
  | addTraj tile =>
      show aupdate q _ b.pieces = aupdate q _ b2.pieces
      rw [hp]
      exact aupdate_congr q _ _ b2.pieces
        (fun a => by unfold addTrajectory; rw [valid_congr hw hh])
  | removeTraj tile =>
      show aupdate q _ b.pieces = aupdate q _ b2.pieces
      rw [hp]
  | addCapt tile =>
      show aupdate q _ b.pieces = aupdate q _ b2.pieces
      rw [hp]
      exact aupdate_congr q _ _ b2.pieces
        (fun a => by unfold addCapturing; rw [valid_congr hw hh])
  | removeCapt tile =>
      show aupdate q _ b.pieces = aupdate q _ b2.pieces
      rw [hp]
  | addCapturable tile =>
      simp only [Board.applyCall, hp]
      cases alookup b2.pieces q with
      | none => exact hp
      | some pc =>
          rw [(addCapturableB_frame b pc.id tile).2.2.1,
            (addCapturableB_frame b2 pc.id tile).2.2.1]
          exact hp
  | removeCapturable tile =>
      simp only [Board.applyCall, hp]
      cases alookup b2.pieces q with
      | none => exact hp
      | some pc => exact hp

theorem applyCalls_pieces_congr (cs : List PrimCall) {b b2 : Board}
    (hp : b.pieces = b2.pieces) (hw : b.width = b2.width)
    (hh : b.height = b2.height) (q : Sq) :
    (b.applyCalls q cs).pieces = (b2.applyCalls q cs).pieces := by
  induction cs generalizing b b2 with
  | nil => exact hp
  | cons c rest ih =>
      refine ih (applyCall_pieces_congr hp hw hh q c) ?_ ?_
      · rw [(applyCall_frame b q c).1, (applyCall_frame b2 q c).1, hw]
      · rw [(applyCall_frame b q c).2.1, (applyCall_frame b2 q c).2.1, hh]

/-! ### `makeTrajectory` on an unoccupied square is the identity -/

theorem clearStep_none {b : Board} {q : Sq} (h : alookup b.pieces q = none) :
    clearStep b q = b :=
  boardEqOfFields rfl rfl (aupdate_none q clearF b.pieces h) rfl rfl rfl

theorem addSelfStep_none {b : Board} {q : Sq} (h : alookup b.pieces q = none) :
    addSelfStep b q = b := by
  unfold addSelfStep
  rw [h]

theorem calcStep_none {b : Board} {q : Sq} (h : alookup b.pieces q = none) :
    calcStep b q = b := by
  unfold calcStep
  rw [h]

theorem makeTrajectoryAt_none {b : Board} {q : Sq} (h : alookup b.pieces q = none) :
    b.makeTrajectoryAt q = b := by
  unfold Board.makeTrajectoryAt
  rw [clearStep_none h, addSelfStep_none h, calcStep_none h]

/-- C3 (amended): running `makeTrajectory` twice in succession for the
same piece, with no intervening mutation, leaves the entire position
table — in particular the piece's trajectory and capturing sets —
identical to running it once.  (The board-wide capture relation is *not*
idempotent under `makeTrajectory`; see the counterexample.) -/
theorem C3_recalc_idempotent_on_piece_state (b : Board) (q : Sq) :
    ((b.makeTrajectoryAt q).makeTrajectoryAt q).pieces = (b.makeTrajectoryAt q).pieces := by
  cases h : alookup b.pieces q with
  | none => rw [makeTrajectoryAt_none h, makeTrajectoryAt_none h]
  | some pc =>
      have hWx : ∀ x : Board, (addSelfStep (clearStep x q) q).width = x.width :=
        fun x => (addSelfStep_frame (clearStep x q) q).1
      have hHx : ∀ x : Board, (addSelfStep (clearStep x q) q).height = x.height :=
        fun x => (addSelfStep_frame (clearStep x q) q).2.1
      have hbap : (addSelfStep (clearStep b q) q).pieces = aupdate q clearF b.pieces :=
        (addSelfStep_frame (clearStep b q) q).2.2.1
      have hlba : alookup (addSelfStep (clearStep b q) q).pieces q = some (clearF pc) := by
        rw [hbap, alookup_aupdate_self, h]
        rfl
      have hb1 : b.makeTrajectoryAt q
          = (addSelfStep (clearStep b q) q).applyCalls q
              ((clearF pc).rule (clearF pc).p (clearF pc).s
                (readView (addSelfStep (clearStep b q) q))) := by
        show calcStep (addSelfStep (clearStep b q) q) q = _
        unfold calcStep
        rw [hlba]
      have hw1 : (b.makeTrajectoryAt q).width = b.width := (makeTrajectoryAt_frame b q).1
      have hh1 : (b.makeTrajectoryAt q).height = b.height := (makeTrajectoryAt_frame b q).2.1
      have hc2 : aupdate q clearF (b.makeTrajectoryAt q).pieces
          = (addSelfStep (clearStep b q) q).pieces := by
        rw [hb1, aupdate_clearF_applyCalls, hbap, aupdate_comp]
        exact aupdate_congr q _ _ b.pieces (fun a => rfl)
      have hba2p : (addSelfStep (clearStep (b.makeTrajectoryAt q) q) q).pieces
          = (addSelfStep (clearStep b q) q).pieces := by
        rw [(addSelfStep_frame (clearStep (b.makeTrajectoryAt q) q) q).2.2.1]
        exact hc2
      have hlba2 : alookup (addSelfStep (clearStep (b.makeTrajectoryAt q) q) q).pieces q
          = some (clearF pc) := by
        rw [hba2p]
        exact hlba
      have hw2 : (addSelfStep (clearStep (b.makeTrajectoryAt q) q) q).width
          = (addSelfStep (clearStep b q) q).width := by
        rw [hWx, hWx, hw1]
      have hh2 : (addSelfStep (clearStep (b.makeTrajectoryAt q) q) q).height
          = (addSelfStep (clearStep b q) q).height := by
        rw [hHx, hHx, hh1]
      have hview : readView (addSelfStep (clearStep (b.makeTrajectoryAt q) q) q)
          = readView (addSelfStep (clearStep b q) q) := by
        unfold readView
        rw [hba2p, hWx, hw1, hWx, hHx, hh1, hHx]
      show (calcStep (addSelfStep (clearStep (b.makeTrajectoryAt q) q) q) q).pieces
          = (b.makeTrajectoryAt q).pieces
      unfold calcStep
      rw [hlba2, hview]
      rw [applyCalls_pieces_congr _ hba2p hw2 hh2 q]
      rw [hb1]

/-- C3 counterexample: on the concrete one-piece board `b0`, running
`makeTrajectory` for the piece at the origin twice leaves a different
board-wide capture relation than running it once — each run appends a
fresh self-capturable entry to the multimap, which is never cleared by
`makeTrajectory` itself. -/
theorem C3_counterexample :
    ((b0.makeTrajectoryAt ⟨0, 0⟩).makeTrajectoryAt ⟨0, 0⟩).captures
      ≠ (b0.makeTrajectoryAt ⟨0, 0⟩).captures := by
  decide

theorem valid_clearStep (b : Board) (q t : Sq) :
    (clearStep b q).valid t = b.valid t :=
  rfl

theorem addSelfStep_captures {b : Board} {q : Sq} {pc : PieceSt}
    (h : alookup b.pieces q = some pc) :
    (addSelfStep b q).captures
      = (if b.valid pc.p then b.captures ++ [(pc.id, pc.p)] else b.captures) := by
  unfold addSelfStep
  simp only [h]
  unfold addCapturableB
  split <;> simp [*]

/-- C4: `makeTrajectory` is exactly the composition of three stages in
order — first `traj.clear(); capt.clear();` for the piece, then
`addCapturable(pos)` registering the piece's own current square in the
board-wide capture relation (the `addCapturable` bounds filter admits it
exactly when the square is valid), and only then the variant rule hook
`calcTrajectory`, which runs on the already-cleared-and-registered
state. -/
theorem C4_makeTrajectory_order (b : Board) (q : Sq) :
    b.makeTrajectoryAt q = calcStep (addSelfStep (clearStep b q) q) q
    ∧ ∀ pc, alookup b.pieces q = some pc →
        alookup (clearStep b q).pieces q = some (clearF pc)
        ∧ (clearF pc).traj = ∅ ∧ (clearF pc).capt = ∅
        ∧ (∀ q₂, q₂ ≠ q → alookup (clearStep b q).pieces q₂ = alookup b.pieces q₂)
        ∧ (clearStep b q).captures = b.captures
        ∧ (addSelfStep (clearStep b q) q).captures
            = (if b.valid pc.p then b.captures ++ [(pc.id, pc.p)] else b.captures)
        ∧ (addSelfStep (clearStep b q) q).pieces = (clearStep b q).pieces
        ∧ b.makeTrajectoryAt q
            = (addSelfStep (clearStep b q) q).applyCalls q
                ((clearF pc).rule (clearF pc).p (clearF pc).s
                  (readView (addSelfStep (clearStep b q) q))) := by
  constructor
  · rfl
  · intro pc h
    have hcl : alookup (clearStep b q).pieces q = some (clearF pc) := by
      show alookup (aupdate q clearF b.pieces) q = some (clearF pc)
      rw [alookup_aupdate_self, h]
      rfl
    refine ⟨hcl, rfl, rfl, ?_, rfl, ?_, (addSelfStep_frame (clearStep b q) q).2.2.1, ?_⟩
    · intro q₂ hne
      exact alookup_aupdate_ne q q₂ clearF b.pieces hne
    · exact @addSelfStep_captures (clearStep b q) q (clearF pc) hcl
    · show calcStep (addSelfStep (clearStep b q) q) q = _
      have hlba : alookup (addSelfStep (clearStep b q) q).pieces q = some (clearF pc) := by
        rw [(addSelfStep_frame (clearStep b q) q).2.2.1]
        exact hcl
      unfold calcStep
      rw [hlba]

/-- C4 witness: on the concrete board `b0`, the middle stage has indeed
registered the origin piece's own square as a capturable entry, and the
clearing stage has emptied its derived sets. -/
theorem C4_witness :
    (addSelfStep (clearStep b0 ⟨0, 0⟩) ⟨0, 0⟩).captures = [(0, ⟨0, 0⟩)]
    ∧ alookup (clearStep b0 ⟨0, 0⟩).pieces ⟨0, 0⟩ = some (clearF pc0) := by
  have h := (C4_makeTrajectory_order b0 ⟨0, 0⟩).2 pc0 rfl
  constructor
  · rw [h.2.2.2.2.2.1]
    decide
  · exact h.1

/-- C6: the registration primitives `addTrajectory` and `addCapturing`
insert a candidate square into the piece's trajectory or capturing set
if and only if the square satisfies the board's bounds predicate
(`0 <= x < width` and `0 <= y < height`); an out-of-bounds candidate
leaves the piece entirely unchanged (silently dropped, no error), so
sets of in-bounds squares stay sets of in-bounds squares. -/
theorem C6_registration_bounds_filter (b : Board) (pc : PieceSt) (tile x : Sq) :
    (b.valid tile = true ↔ (0 ≤ tile.x ∧ tile.x < b.width ∧ 0 ≤ tile.y ∧ tile.y < b.height))
    ∧ (x ∈ (addTrajectory b pc tile).traj
        ↔ (x ∈ pc.traj ∨ (x = tile ∧ b.valid tile = true)))
    ∧ (x ∈ (addCapturing b pc tile).capt
        ↔ (x ∈ pc.capt ∨ (x = tile ∧ b.valid tile = true)))
    ∧ (b.valid tile = false → addTrajectory b pc tile = pc ∧ addCapturing b pc tile = pc)
    ∧ ((∀ y ∈ pc.traj, b.valid y = true) →
        ∀ y ∈ (addTrajectory b pc tile).traj, b.valid y = true)
    ∧ ((∀ y ∈ pc.capt, b.valid y = true) →
        ∀ y ∈ (addCapturing b pc tile).capt, b.valid y = true) := by
  refine ⟨?_, ?_, ?_, ?_, ?_, ?_⟩
  · unfold Board.valid
    exact decide_eq_true_iff
  · by_cases hv : b.valid tile = true
    · simp [addTrajectory, hv, Finset.mem_insert, or_comm]
    · simp [addTrajectory, hv]
  · by_cases hv : b.valid tile = true
    · simp [addCapturing, hv, Finset.mem_insert, or_comm]
    · simp [addCapturing, hv]
  · intro hv
    constructor <;> simp [addTrajectory, addCapturing, hv]
  · intro hall y hy
    by_cases hv : b.valid tile = true
    · simp [addTrajectory, hv, Finset.mem_insert] at hy
      rcases hy with hy | hy
      · rw [hy]; exact hv
      · exact hall y hy
    · simp [addTrajectory, hv] at hy
      exact hall y hy
  · intro hall y hy
    by_cases hv : b.valid tile = true
    · simp [addCapturing, hv, Finset.mem_insert] at hy
      rcases hy with hy | hy
      · rw [hy]; exact hv
      · exact hall y hy
    · simp [addCapturing, hv] at hy
      exact hall y hy

/-- C6 witness: on the concrete board `b0` (8 by 8), the in-bounds
candidate (0,1) is inserted into the trajectory, and the out-of-bounds
candidate (9,9) leaves the piece unchanged. -/
theorem C6_witness :
    (⟨0, 1⟩ : Sq) ∈ (addTrajectory b0 pc0 ⟨0, 1⟩).traj
    ∧ addTrajectory b0 pc0 ⟨9, 9⟩ = pc0 := by
  constructor
  · exact (C6_registration_bounds_filter b0 pc0 ⟨0, 1⟩ ⟨0, 1⟩).2.1.mpr
      (Or.inr ⟨rfl, by decide⟩)
  · exact ((C6_registration_bounds_filter b0 pc0 ⟨9, 9⟩ ⟨9, 9⟩).2.2.2.1 (by decide)).1

/-- C9: `Board::at` returns null exactly when the square is not a key of
the position table; otherwise it returns the piece stored under that
key; and the call leaves the board (in particular the position table)
unchanged — the guarded `operator[]` access never default-inserts. -/
theorem C9_at_queries_without_mutation (b : Board) (q : Sq) (d : PieceSt) :
    ((b.atS q d).1 = none ↔ ∀ pc, (q, pc) ∉ b.pieces)
    ∧ (∀ pc, (b.atS q d).1 = some pc → (q, pc) ∈ b.pieces)
    ∧ (b.atS q d).2 = b := by
  cases h : alookup b.pieces q with
  | none =>
      have ha : b.atS q d = (none, b) := by
        unfold Board.atS
        rw [h]
      rw [ha]
      refine ⟨?_, ?_, rfl⟩
      · constructor
        · intro _
          exact (alookup_none_iff q b.pieces).mp h
        · intro _
          rfl
      · intro pc hc
        exact absurd hc (by simp)
  | some pc =>
      have hm : mapIndex b.pieces q d = (pc, b.pieces) := by
        unfold mapIndex
        rw [h]
      have ha : b.atS q d = (some pc, b) := by
        unfold Board.atS
        simp only [h, hm]
      rw [ha]
      refine ⟨?_, ?_, rfl⟩
      · constructor
        · intro hc
          simp at hc
        · intro hall
          exact absurd (alookup_mem h) (hall pc)
      · intro pc2 hc
        have : pc = pc2 := Option.some.inj hc
        rw [← this]
        exact alookup_mem h

/-- C9 witness: on the concrete board `b0`, the query at the occupied
origin returns without mutating the board, and the occupant is the
stored entry. -/
theorem C9_witness :
    (b0.atS ⟨0, 0⟩ pc0).2 = b0 ∧ (⟨0, 0⟩, pc0) ∈ b0.pieces := by
  refine ⟨(C9_at_queries_without_mutation b0 ⟨0, 0⟩ pc0).2.2, ?_⟩
  exact (C9_at_queries_without_mutation b0 ⟨0, 0⟩ pc0).2.1 pc0 rfl

/-- C10: a single `removeCapturable(square)` call erases at most one
entry of the board-wide capture relation — the first stored
(this-piece, square) entry, even when identical duplicates exist — and
leaves every entry of other pieces or other squares unchanged
(multiplicity included); the board's position table and interaction
registry are untouched. -/
theorem C10_removeCapturable_first_match_only (b : Board) (pid : Nat) (tile : Sq)
    (l lpre lpost : List (Nat × Sq)) (e e2 : Nat × Sq) :
    ((∀ e3 ∈ l, ¬(e3.1 = pid ∧ e3.2 = tile)) → removeFirstEntry pid tile l = l)
    ∧ (l = lpre ++ e :: lpost → (e.1 = pid ∧ e.2 = tile) →
        (∀ e3 ∈ lpre, ¬(e3.1 = pid ∧ e3.2 = tile)) →
        removeFirstEntry pid tile l = lpre ++ lpost)
    ∧ ((e2.1 ≠ pid ∨ e2.2 ≠ tile) →
        (removeFirstEntry pid tile l).count e2 = l.count e2)
    ∧ l.length ≤ (removeFirstEntry pid tile l).length + 1
    ∧ (removeFirstEntry pid tile l).length ≤ l.length
    ∧ (removeCapturableB b pid tile).pieces = b.pieces
    ∧ (removeCapturableB b pid tile).interactions = b.interactions
    ∧ (removeCapturableB b pid tile).captures = removeFirstEntry pid tile b.captures := by
  refine ⟨?_, ?_, ?_, ?_, ?_, rfl, rfl, rfl⟩
  · intro hall
    induction l with
    | nil => rfl
    | cons a rest ih =>
        have ha : ¬(a.1 = pid ∧ a.2 = tile) := hall a (List.mem_cons_self a rest)
        simp only [removeFirstEntry, if_neg ha]
        rw [ih (fun e3 he3 => hall e3 (List.mem_cons_of_mem a he3))]
  · intro hl he hpre
    subst hl
    induction lpre with
    | nil =>
        simp only [List.nil_append, removeFirstEntry, if_pos he]
    | cons a rest ih =>
        have ha : ¬(a.1 = pid ∧ a.2 = tile) := hpre a (List.mem_cons_self a rest)
        simp only [List.cons_append, removeFirstEntry, if_neg ha]
        exact congrArg (List.cons a) (ih (fun e3 he3 => hpre e3 (List.mem_cons_of_mem a he3)))
  · intro hne
    induction l with
    | nil => rfl
    | cons a rest ih =>
        by_cases ha : a.1 = pid ∧ a.2 = tile
        · simp only [removeFirstEntry, if_pos ha]
          have : a ≠ e2 := by
            intro hc
            subst hc
            rcases hne with hne | hne <;> exact hne (by tauto)
          rw [List.count_cons_of_ne (Ne.symm this)]
        · simp only [removeFirstEntry, if_neg ha, List.count_cons, ih]
  · induction l with
    | nil => simp [removeFirstEntry]
    | cons a rest ih =>
        by_cases ha : a.1 = pid ∧ a.2 = tile
        · simp only [removeFirstEntry, if_pos ha, List.length_cons]
          omega
        · simp only [removeFirstEntry, if_neg ha, List.length_cons]
          omega
  · induction l with
    | nil => simp [removeFirstEntry]
    | cons a rest ih =>
        by_cases ha : a.1 = pid ∧ a.2 = tile
        · simp only [removeFirstEntry, if_pos ha, List.length_cons]
          omega
        · simp only [removeFirstEntry, if_neg ha, List.length_cons]
          omega

/-- C10 witness: with two identical (0, origin) entries followed by a
(1, origin) entry, removing (piece 0, origin) deletes exactly the first
duplicate and keeps the other piece's entry with its multiplicity. -/
theorem C10_witness :
    removeFirstEntry 0 ⟨0, 0⟩ [(0, ⟨0, 0⟩), (0, ⟨0, 0⟩), (1, ⟨0, 0⟩)]
      = [(0, ⟨0, 0⟩), (1, ⟨0, 0⟩)]
    ∧ (removeFirstEntry 0 ⟨0, 0⟩ [(0, ⟨0, 0⟩), (0, ⟨0, 0⟩), (1, ⟨0, 0⟩)]).count (1, ⟨0, 0⟩)
      = ([(0, ⟨0, 0⟩), (0, ⟨0, 0⟩), (1, ⟨0, 0⟩)] : List (Nat × Sq)).count (1, ⟨0, 0⟩) := by
  constructor
  · exact (C10_removeCapturable_first_match_only b0 0 ⟨0, 0⟩
      [(0, ⟨0, 0⟩), (0, ⟨0, 0⟩), (1, ⟨0, 0⟩)] [] [(0, ⟨0, 0⟩), (1, ⟨0, 0⟩)]
      (0, ⟨0, 0⟩) (1, ⟨0, 0⟩)).2.1 rfl (by decide) (by decide)
  · exact (C10_removeCapturable_first_match_only b0 0 ⟨0, 0⟩
      [(0, ⟨0, 0⟩), (0, ⟨0, 0⟩), (1, ⟨0, 0⟩)] [] [(0, ⟨0, 0⟩), (1, ⟨0, 0⟩)]
      (0, ⟨0, 0⟩) (1, ⟨0, 0⟩)).2.2.1 (Or.inl (by decide))

/-! ### `Board::move` -/

theorem move_true_elim {b : Board} {s t : Sq} {b2 : Board}
    (hmv : b.move s t = (true, b2)) :
    ∃ pc, alookup b.pieces s = some pc ∧ t ∈ pc.traj
      ∧ b2 = (({ b with pieces := ainsert t (pc.moveP t) (aerase s b.pieces) }
          : Board).makeTrajectoryAt t).update t := by
  unfold Board.move at hmv
  cases h : alookup b.pieces s with
  | none =>
      simp only [h] at hmv
      exact absurd (congrArg Prod.fst hmv) (by simp)
  | some pc =>
      simp only [h] at hmv
      by_cases ht : t ∈ pc.traj
      · rw [if_pos ht] at hmv
        exact ⟨pc, rfl, ht, (congrArg Prod.snd hmv).symm⟩
      · rw [if_neg ht] at hmv
        exact absurd (congrArg Prod.fst hmv) (by simp)

/-- C1: `Board::move(source, target)` returns true only if the source
square is occupied and the target lies in the occupying piece's current
trajectory set; whenever it returns false, the entire board state — the
position table, every piece's trajectory and capturing sets, the capture
relation and the interaction registry — is returned unchanged. -/
theorem C1_move_guard_and_atomic_failure (b : Board) (s t : Sq) :
    ((b.move s t).1 = true → ∃ pc, alookup b.pieces s = some pc ∧ t ∈ pc.traj)
    ∧ ((b.move s t).1 = false → (b.move s t).2 = b) := by
  refine ⟨fun htrue => ?_, fun hfalse => ?_⟩
  · have hmv : b.move s t = (true, (b.move s t).2) := by
      rw [← htrue]
    obtain ⟨pc, h1, h2, _⟩ := move_true_elim hmv
    exact ⟨pc, h1, h2⟩
  · unfold Board.move at hfalse ⊢
    cases h : alookup b.pieces s with
    | none => rfl
    | some pc =>
        simp only [h] at hfalse ⊢
        by_cases ht : t ∈ pc.traj
        · rw [if_pos ht] at hfalse
          simp at hfalse
        · rw [if_neg ht]

/-- C1 witness: on the concrete board `bW`, moving to a square outside
the trajectory fails and returns the board unchanged, while the
successful move's guard certifies membership in the trajectory. -/
theorem C1_witness :
    (bW.move ⟨0, 0⟩ ⟨5, 5⟩).2 = bW ∧ (⟨0, 1⟩ : Sq) ∈ pcW.traj := by
  constructor
  · exact (C1_move_guard_and_atomic_failure bW ⟨0, 0⟩ ⟨5, 5⟩).2 (by decide)
  · obtain ⟨pc, hpc, hmem⟩ :=
      (C1_move_guard_and_atomic_failure bW ⟨0, 0⟩ ⟨0, 1⟩).1 (by decide)
    have hv : alookup bW.pieces ⟨0, 0⟩ = some pcW := rfl
    have : pc = pcW := Option.some.inj (hpc.symm.trans hv)
    rw [← this]
    exact hmem

/-! ### Move counters -/

theorem obs_lookup_transport {l l2 : List (Sq × PieceSt)}
    (h : obsMap l2 = obsMap l) {q : Sq} {pc : PieceSt}
    (hl : alookup l q = some pc) :
    ∃ pc2, alookup l2 q = some pc2 ∧ pc2.id = pc.id ∧ pc2.p = pc.p
      ∧ pc2.s = pc.s ∧ pc2.movenum = pc.movenum := by
  have ht := alookup_of_obsMap h q
  rw [hl] at ht
  cases h2 : alookup l2 q with
  | none =>
      rw [h2] at ht
      simp at ht
  | some pc2 =>
      rw [h2] at ht
      have ht2 : some (obsF pc2) = some (obsF pc) := ht
      obtain ⟨h3, h4, h5, h6⟩ := obsF_fields (Option.some.inj ht2)
      exact ⟨pc2, rfl, h3, h4, h5, h6⟩

theorem construct_ok_elim {w h : Int} {layout : List (Sq × Nat × Nat)}
    {factory : List (Nat × Rule)} {bc : Board}
    (hc : Board.construct w h layout factory = Except.ok bc) :
    ∃ tbl n, buildTable factory layout 0 [] = Except.ok (tbl, n)
      ∧ bc = passOver ⟨w, h, tbl, [], [], 0⟩ := by
  unfold Board.construct at hc
  cases hb : buildTable factory layout 0 [] with
  | error e =>
      rw [hb] at hc
      have hc2 : (Except.error e : Except Unit Board) = Except.ok bc := hc
      exact absurd hc2 (by simp)
  | ok r =>
      obtain ⟨tbl, n⟩ := r
      rw [hb] at hc
      have hc2 : Except.ok (passOver ⟨w, h, tbl, [], [], 0⟩) = Except.ok bc := hc
      exact ⟨tbl, n, rfl, (Except.ok.inj hc2).symm⟩

theorem buildTable_movenum {factory : List (Nat × Rule)} :
    ∀ (layout : List (Sq × Nat × Nat)) (n : Nat) (acc : List (Sq × PieceSt))
      (tbl : List (Sq × PieceSt)) (n2 : Nat),
      (∀ q pc, alookup acc q = some pc → pc.movenum = 0) →
      buildTable factory layout n acc = Except.ok (tbl, n2) →
      ∀ q pc, alookup tbl q = some pc → pc.movenum = 0 := by
  intro layout
  induction layout with
  | nil =>
      intro n acc tbl n2 hacc hb q pc hl
      unfold buildTable at hb
      have : acc = tbl := congrArg Prod.fst (Except.ok.inj hb)
      exact hacc q pc (this ▸ hl)
  | cons slot rest ih =>
      intro n acc tbl n2 hacc hb q pc hl
      unfold buildTable at hb
      cases hf : alookup factory slot.2.1 with
      | none =>
          rw [hf] at hb
          exact absurd hb (by simp)
      | some r =>
          rw [hf] at hb
          refine ih (n + 1) _ tbl n2 ?_ hb q pc hl
          intro q2 pc2 hl2
          by_cases hq : q2 = slot.1
          · rw [hq, alookup_ainsert_self] at hl2
            rw [← Option.some.inj hl2]
            rfl
          · rw [alookup_ainsert_ne slot.1 q2 _ acc hq] at hl2
            exact hacc q2 pc2 hl2

/-- C8: each completed relocation through `Piece::move` increments the
piece's move counter by exactly one; a successful `Board::move` leaves
the mover with counter old+1 and every other piece's counter unchanged;
the recalculation operations never change any counter; and pieces come
out of board construction with counter 0, so the first successful move
of a freshly constructed piece yields counter 1. -/
theorem C8_move_count (b : Board) (s t : Sq) :
    (∀ pc dst, (PieceSt.moveP pc dst).movenum = pc.movenum + 1)
    ∧ (∀ b2, b.move s t = (true, b2) →
        ∃ pc pc2, alookup b.pieces s = some pc
          ∧ alookup b2.pieces t = some pc2
          ∧ pc2.id = pc.id ∧ pc2.movenum = pc.movenum + 1)
    ∧ (∀ b2 q pc, b.move s t = (true, b2) → q ≠ s → q ≠ t →
        alookup b.pieces q = some pc →
        ∃ pc2, alookup b2.pieces q = some pc2 ∧ pc2.id = pc.id
          ∧ pc2.movenum = pc.movenum)
    ∧ (∀ q, obsMap (b.makeTrajectoryAt q).pieces = obsMap b.pieces)
    ∧ (∀ m, obsMap (b.update m).pieces = obsMap b.pieces)
    ∧ (∀ (w h : Int) (layout : List (Sq × Nat × Nat))
        (factory : List (Nat × Rule)) (bc : Board),
        Board.construct w h layout factory = Except.ok bc →
        ∀ q pc, alookup bc.pieces q = some pc → pc.movenum = 0) := by
  refine ⟨fun pc dst => rfl, ?_, ?_, fun q => obsMap_makeTrajectoryAt b q,
    fun m => obsMap_update b m, ?_⟩
  · intro b2 hmv
    obtain ⟨pc, h1, _, h3⟩ := move_true_elim hmv
    have hb1 : alookup (ainsert t (pc.moveP t) (aerase s b.pieces)) t
        = some (pc.moveP t) := alookup_ainsert_self t _ _
    have hobs : obsMap b2.pieces
        = obsMap (ainsert t (pc.moveP t) (aerase s b.pieces)) := by
      rw [h3]
      exact (obsMap_update _ t).trans (obsMap_makeTrajectoryAt _ t)
    obtain ⟨pc2, hl2, hid, _, _, hmn⟩ := obs_lookup_transport hobs hb1
    exact ⟨pc, pc2, h1, hl2, hid, hmn⟩
  · intro b2 q pc hmv hqs hqt hl
    obtain ⟨pcm, _, _, h3⟩ := move_true_elim hmv
    have hb1 : alookup (ainsert t (pcm.moveP t) (aerase s b.pieces)) q = some pc := by
      rw [alookup_ainsert_ne t q _ _ hqt, alookup_aerase_ne s q _ hqs]
      exact hl
    have hobs : obsMap b2.pieces
        = obsMap (ainsert t (pcm.moveP t) (aerase s b.pieces)) := by
      rw [h3]
      exact (obsMap_update _ t).trans (obsMap_makeTrajectoryAt _ t)
    obtain ⟨pc2, hl2, hid, _, _, hmn⟩ := obs_lookup_transport hobs hb1
    exact ⟨pc2, hl2, hid, hmn⟩
  · intro w h layout factory bc hc q pc hl
    obtain ⟨tbl, n, hb, hbc⟩ := construct_ok_elim hc
    have hobs : obsMap (⟨w, h, tbl, [], [], 0⟩ : Board).pieces = obsMap bc.pieces := by
      rw [hbc]
      exact (obsMap_passOver _).symm
    obtain ⟨pc2, hl2, _, _, _, hmn⟩ := obs_lookup_transport hobs hl
    rw [← hmn]
    exact buildTable_movenum layout 0 [] tbl n (fun q2 pc2 hc2 => by simp [alookup] at hc2)
      hb q pc2 hl2

/-- C8 witness: on the concrete board `bW` whose origin piece has
counter 0, the successful move to (0,1) leaves the mover stored at (0,1)
with its identity intact and counter exactly 1. -/
theorem C8_witness :
    (alookup ((bW.move ⟨0, 0⟩ ⟨0, 1⟩).2).pieces ⟨0, 1⟩).map (fun pc => (pc.id, pc.movenum))
      = some (0, 1) := by
  have h1 : (bW.move ⟨0, 0⟩ ⟨0, 1⟩).1 = true := by decide
  have hmv : bW.move ⟨0, 0⟩ ⟨0, 1⟩ = (true, (bW.move ⟨0, 0⟩ ⟨0, 1⟩).2) := by
    rw [← h1]
  obtain ⟨pc, pc2, ha, hb, hc, hd⟩ :=
    (C8_move_count bW ⟨0, 0⟩ ⟨0, 1⟩).2.1 ((bW.move ⟨0, 0⟩ ⟨0, 1⟩).2) hmv
  have hv : alookup bW.pieces ⟨0, 0⟩ = some pcW := rfl
  have hpc : pc = pcW := Option.some.inj (ha.symm.trans hv)
  rw [hb]
  show some (pc2.id, pc2.movenum) = some (0, 1)
  rw [hc, hd, hpc]
  rfl

/-! ### Interaction registry -/

theorem countKey_cons (t : Nat) (e : Nat × InteractionInst)
    (rest : List (Nat × InteractionInst)) :
    countKey t (e :: rest)
      = (if e.1 = t then countKey t rest + 1 else countKey t rest) := by
  unfold countKey
  by_cases he : e.1 = t <;> simp [List.filter_cons, he]

theorem countKey_none {t : Nat} {l : List (Nat × InteractionInst)}
    (h : alookup l t = none) : countKey t l = 0 := by
  induction l with
  | nil => rfl
  | cons e rest ih =>
      by_cases he : e.1 = t
      · simp [alookup, he] at h
      · simp only [alookup, if_neg he] at h
        rw [countKey_cons, if_neg he]
        exact ih h

theorem countKey_pos {t : Nat} {l : List (Nat × InteractionInst)}
    {inst : InteractionInst} (h : alookup l t = some inst) : 1 ≤ countKey t l := by
  induction l with
  | nil => simp [alookup] at h
  | cons e rest ih =>
      by_cases he : e.1 = t
      · rw [countKey_cons, if_pos he]
        omega
      · simp only [alookup, if_neg he] at h
        rw [countKey_cons, if_neg he]
        exact ih h

theorem countKey_ainsert_none {t : Nat} {l : List (Nat × InteractionInst)}
    (v : InteractionInst) (h : alookup l t = none) :
    countKey t (ainsert t v l) = countKey t l + 1 := by
  induction l with
  | nil => simp [ainsert, countKey_cons, countKey]
  | cons e rest ih =>
      by_cases he : e.1 = t
      · simp [alookup, he] at h
      · simp only [alookup, if_neg he] at h
        show countKey t (if e.1 = t then (t, v) :: rest else e :: ainsert t v rest) = _
        rw [if_neg he, countKey_cons, if_neg he, countKey_cons, if_neg he, ih h]

theorem getInteraction_some {b : Board} {t : Nat} {inst : InteractionInst}
    (ctor : Board → Int) (h : alookup b.interactions t = some inst) :
    b.getInteraction t ctor = (inst, b) := by
  unfold Board.getInteraction
  simp only [h]

theorem move_interactions (b : Board) (s t : Sq) :
    ((b.move s t).2).interactions = b.interactions := by
  unfold Board.move
  cases h : alookup b.pieces s with
  | none => rfl
  | some pc =>
      by_cases ht : t ∈ pc.traj
      · simp only [if_pos ht]
        rw [(update_frame _ t).2.2.1, (makeTrajectoryAt_frame _ t).2.2.1]
      · simp only [if_neg ht]

/-- C7: the interaction registry holds at most one live instance per
concrete rule type for the board's lifetime — the first `getInteraction`
request for a type tag constructs the instance (passing the board to its
constructor) and stores it, every later request returns that same stored
instance without modifying the registry, and `Board::move` never touches
the registry, so the instance's state persists across moves. -/
theorem C7_interaction_registry_singleton (b : Board) (t : Nat) (ctor : Board → Int) :
    ((b.getInteraction t ctor).2.getInteraction t ctor).1 = (b.getInteraction t ctor).1
    ∧ ((b.getInteraction t ctor).2.getInteraction t ctor).2 = (b.getInteraction t ctor).2
    ∧ alookup ((b.getInteraction t ctor).2).interactions t = some (b.getInteraction t ctor).1
    ∧ (alookup b.interactions t = none →
        (b.getInteraction t ctor).1 = ⟨t, b.nextInstId, ctor b⟩)
    ∧ (countKey t b.interactions ≤ 1 →
        countKey t ((b.getInteraction t ctor).2).interactions = 1)
    ∧ (∀ s2 t2, ((((b.getInteraction t ctor).2).move s2 t2).2).interactions
        = ((b.getInteraction t ctor).2).interactions) := by
  cases h : alookup b.interactions t with
  | some inst =>
      have hg : b.getInteraction t ctor = (inst, b) := getInteraction_some ctor h
      rw [hg]
      refine ⟨?_, ?_, ?_, ?_, ?_, ?_⟩
      · rw [show ((inst, b).2) = b from rfl, hg]
      · rw [show ((inst, b).2) = b from rfl, hg]
      · exact h
      · intro h0
        exact absurd h0 (by simp)
      · intro hle
        have h1 := countKey_pos h
        show countKey t b.interactions = 1
        omega
      · intro s2 t2
        exact move_interactions b s2 t2
  | none =>
      have hg : b.getInteraction t ctor
          = (⟨t, b.nextInstId, ctor b⟩,
              { b with
                interactions := ainsert t ⟨t, b.nextInstId, ctor b⟩ b.interactions
                nextInstId := b.nextInstId + 1 }) := by
        unfold Board.getInteraction
        simp only [h]
      have hl2 : alookup ((b.getInteraction t ctor).2).interactions t
          = some ⟨t, b.nextInstId, ctor b⟩ := by
        rw [hg]
        exact alookup_ainsert_self t _ b.interactions
      refine ⟨?_, ?_, ?_, ?_, ?_, ?_⟩
      · rw [getInteraction_some ctor hl2, hg]
      · rw [getInteraction_some ctor hl2]
      · rw [hl2, hg]
      · intro _
        rw [hg]
      · intro _
        rw [hg]
        show countKey t (ainsert t ⟨t, b.nextInstId, ctor b⟩ b.interactions) = 1
        rw [countKey_ainsert_none _ h, countKey_none h]
      · intro s2 t2
        exact move_interactions _ s2 t2

/-- C7 witness: on the concrete board `b0` (empty registry), requesting
tag 5 twice returns the same instance, and the registry then holds
exactly one entry under tag 5. -/
theorem C7_witness :
    ((b0.getInteraction 5 ctor3).2.getInteraction 5 ctor3).1 = (b0.getInteraction 5 ctor3).1
    ∧ countKey 5 ((b0.getInteraction 5 ctor3).2).interactions = 1 := by
  refine ⟨(C7_interaction_registry_singleton b0 5 ctor3).1, ?_⟩
  exact (C7_interaction_registry_singleton b0 5 ctor3).2.2.2.2.1 (by decide)

/-! ### Capture-relation consistency across a recalculation pass -/

theorem mem_removeFirstEntry {pid : Nat} {tile : Sq} {e : Nat × Sq} :
    ∀ {l : List (Nat × Sq)}, e ∈ removeFirstEntry pid tile l → e ∈ l := by
  intro l
  induction l with
  | nil => intro h; exact h
  | cons a rest ih =>
      intro h
      unfold removeFirstEntry at h
      by_cases ha : a.1 = pid ∧ a.2 = tile
      · rw [if_pos ha] at h
        exact List.mem_cons_of_mem a h
      · rw [if_neg ha] at h
        rcases List.mem_cons.mp h with h | h
        · exact h ▸ List.mem_cons_self a rest
        · exact List.mem_cons_of_mem a (ih h)

theorem capok_of_obs {b b2 : Board} (h2 : obsMap b2.pieces = obsMap b.pieces)
    (hc : b2.captures = b.captures) (h : CapOK b) : CapOK b2 := by
  intro e he
  obtain ⟨q, pc, hl, hid⟩ := h e (hc ▸ he)
  obtain ⟨pc2, hl2, hid2, _, _, _⟩ := obs_lookup_transport h2 hl
  exact ⟨q, pc2, hl2, hid2.trans hid⟩

theorem capok_addCapturableB {b : Board} {q : Sq} {pc : PieceSt}
    (hlk : alookup b.pieces q = some pc) (tile : Sq) (h : CapOK b) :
    CapOK (addCapturableB b pc.id tile) := by
  unfold addCapturableB
  split
  · intro e he
    rcases List.mem_append.mp he with he | he
    · exact h e he
    · have : e = (pc.id, tile) := List.mem_singleton.mp he
      exact ⟨q, pc, hlk, by rw [this]⟩
  · exact h

theorem capok_applyCall {b : Board} (q : Sq) (c : PrimCall) (h : CapOK b) :
    CapOK (b.applyCall q c) := by
  cases c with
  | addTraj tile =>
      exact capok_of_obs (obsMap_applyCall b q (.addTraj tile)) rfl h
  | removeTraj tile =>
      exact capok_of_obs (obsMap_applyCall b q (.removeTraj tile)) rfl h
  | addCapt tile =>
      exact capok_of_obs (obsMap_applyCall b q (.addCapt tile)) rfl h
  | removeCapt tile =>
      exact capok_of_obs (obsMap_applyCall b q (.removeCapt tile)) rfl h
  | addCapturable tile =>
      simp only [Board.applyCall]
      cases hlk : alookup b.pieces q with
      | none => exact h
      | some pc => exact capok_addCapturableB hlk tile h
  | removeCapturable tile =>
      simp only [Board.applyCall]
      cases hlk : alookup b.pieces q with
      | none => exact h
      | some pc =>
          intro e he
          exact h e (mem_removeFirstEntry he)

theorem capok_applyCalls {b : Board} (q : Sq) (cs : List PrimCall) (h : CapOK b) :
    CapOK (b.applyCalls q cs) := by
  induction cs generalizing b with
  | nil => exact h
  | cons c rest ih => exact ih (capok_applyCall q c h)

theorem capok_clearStep {b : Board} (q : Sq) (h : CapOK b) : CapOK (clearStep b q) :=
  capok_of_obs (obsMap_aupdate q clearF b.pieces (fun a => (obsF_clearF a).1)) rfl h

theorem capok_addSelfStep {b : Board} (q : Sq) (h : CapOK b) : CapOK (addSelfStep b q) := by
  unfold addSelfStep
  cases hlk : alookup b.pieces q with
  | none => exact h
  | some pc => exact capok_addCapturableB hlk pc.p h

theorem capok_calcStep {b : Board} (q : Sq) (h : CapOK b) : CapOK (calcStep b q) := by
  unfold calcStep
  cases hlk : alookup b.pieces q with
  | none => exact h
  | some pc => exact capok_applyCalls q _ h

theorem capok_makeTrajectoryAt {b : Board} (q : Sq) (h : CapOK b) :
    CapOK (b.makeTrajectoryAt q) :=
  capok_calcStep q (capok_addSelfStep q (capok_clearStep q h))

theorem capok_foldMk {b : Board} (ks : List Sq) (h : CapOK b) :
    CapOK (ks.foldl Board.makeTrajectoryAt b) := by
  induction ks generalizing b with
  | nil => exact h
  | cons k rest ih => exact ih (capok_makeTrajectoryAt k h)

theorem capok_passOver {b : Board} (h : CapOK b) : CapOK (passOver b) := by
  unfold passOver
  exact capok_foldMk _ h

theorem capok_update (b : Board) (m : Sq) : CapOK (b.update m) := by
  unfold Board.update
  refine capok_passOver ?_
  intro e he
  simp at he

theorem hasPieceWithId_of {b : Board} {i : Nat}
    (h : ∃ q pc, alookup b.pieces q = some pc ∧ pc.id = i) :
    b.hasPieceWithId i = true := by
  obtain ⟨q, pc, hl, hid⟩ := h
  unfold Board.hasPieceWithId
  rw [List.any_eq_true]
  exact ⟨(q, pc), alookup_mem hl, by simp [hid]⟩

/-- C2: after a recalculation pass (`Board::update`, which rebuilds the
Capture Relation from scratch), the resulting capture relation does not
depend on any entries present before the pass — every pre-pass entry is
discarded — and every entry present after the pass is keyed by the
identity of a piece that currently exists in the position table (the
key each `addCapturable` call issued during the pass). -/
theorem C2_capture_relation_rebuilt (b : Board) (m : Sq) :
    (∀ c, (Board.update { b with captures := c } m).captures = (b.update m).captures)
    ∧ (∀ e, e ∈ (b.update m).captures → (b.update m).hasPieceWithId e.1 = true) := by
  constructor
  · intro c
    rfl
  · intro e he
    obtain ⟨q, pc, hl, hid⟩ := capok_update b m e he
    exact hasPieceWithId_of ⟨q, pc, hl, hid⟩

/-- C2 witness: on the concrete board `b0`, the pass produces the single
self-capturable entry keyed by piece 0, which does exist on the board. -/
theorem C2_witness :
    (b0.update ⟨0, 0⟩).hasPieceWithId 0 = true
    ∧ ((0 : Nat), (⟨0, 0⟩ : Sq)) ∈ (b0.update ⟨0, 0⟩).captures := by
  have hm : ((0 : Nat), (⟨0, 0⟩ : Sq)) ∈ (b0.update ⟨0, 0⟩).captures := by decide
  exact ⟨(C2_capture_relation_rebuilt b0 ⟨0, 0⟩).2 (0, ⟨0, 0⟩) hm, hm⟩

/-! ### Board construction -/

theorem buildTable_isOk (factory : List (Nat × Rule)) :
    ∀ (layout : List (Sq × Nat × Nat)) (n : Nat) (acc : List (Sq × PieceSt)),
      isOkE (buildTable factory layout n acc) = true
        ↔ ∀ slot ∈ layout, (alookup factory slot.2.1).isSome = true := by
  intro layout
  induction layout with
  | nil =>
      intro n acc
      simp [buildTable, isOkE]
  | cons slot rest ih =>
      intro n acc
      unfold buildTable
      cases hf : alookup factory slot.2.1 with
      | none => simp [hf, isOkE, List.forall_mem_cons]
      | some r => simp [hf, ih, List.forall_mem_cons]

theorem construct_isOk_eq (w h : Int) (layout : List (Sq × Nat × Nat))
    (factory : List (Nat × Rule)) :
    isOkE (Board.construct w h layout factory)
      = isOkE (buildTable factory layout 0 []) := by
  unfold Board.construct
  cases hb : buildTable factory layout 0 [] with
  | error e => rfl
  | ok r =>
      obtain ⟨tbl, n⟩ := r
      rfl

theorem buildTable_isSome_preserved {factory : List (Nat × Rule)} :
    ∀ (layout : List (Sq × Nat × Nat)) (n : Nat) (acc tbl : List (Sq × PieceSt))
      (n2 : Nat) (q : Sq),
      (alookup acc q).isSome = true →
      buildTable factory layout n acc = Except.ok (tbl, n2) →
      (alookup tbl q).isSome = true := by
  intro layout
  induction layout with
  | nil =>
      intro n acc tbl n2 q hq hb
      unfold buildTable at hb
      have : acc = tbl := congrArg Prod.fst (Except.ok.inj hb)
      exact this ▸ hq
  | cons slot rest ih =>
      intro n acc tbl n2 q hq hb
      unfold buildTable at hb
      cases hf : alookup factory slot.2.1 with
      | none =>
          rw [hf] at hb
          exact absurd hb (by simp)
      | some r =>
          rw [hf] at hb
          refine ih (n + 1) _ tbl n2 q ?_ hb
          by_cases hqs : q = slot.1
          · rw [hqs, alookup_ainsert_self]
            rfl
          · rw [alookup_ainsert_ne slot.1 q _ acc hqs]
            exact hq

theorem buildTable_occupied {factory : List (Nat × Rule)} :
    ∀ (layout : List (Sq × Nat × Nat)) (n : Nat) (acc tbl : List (Sq × PieceSt))
      (n2 : Nat),
      buildTable factory layout n acc = Except.ok (tbl, n2) →
      ∀ slot ∈ layout, (alookup tbl slot.1).isSome = true := by
  intro layout
  induction layout with
  | nil =>
      intro n acc tbl n2 hb slot hmem
      simp at hmem
  | cons slot rest ih =>
      intro n acc tbl n2 hb slot2 hmem
      unfold buildTable at hb
      cases hf : alookup factory slot.2.1 with
      | none =>
          rw [hf] at hb
          exact absurd hb (by simp)
      | some r =>
          rw [hf] at hb
          rcases List.mem_cons.mp hmem with hmem | hmem
          · subst hmem
            refine buildTable_isSome_preserved rest (n + 1) _ tbl n2 slot2.1 ?_ hb
            rw [alookup_ainsert_self]
            rfl
          · exact ih (n + 1) _ tbl n2 hb slot2 hmem

theorem buildTable_keys {factory : List (Nat × Rule)} :
    ∀ (layout : List (Sq × Nat × Nat)) (n : Nat) (acc tbl : List (Sq × PieceSt))
      (n2 : Nat),
      buildTable factory layout n acc = Except.ok (tbl, n2) →
      ∀ q pc, alookup tbl q = some pc →
        alookup acc q = some pc
        ∨ ((∃ slot ∈ layout, slot.1 = q) ∧ pc.p = q ∧ pc.movenum = 0) := by
  intro layout
  induction layout with
  | nil =>
      intro n acc tbl n2 hb q pc hl
      unfold buildTable at hb
      have : acc = tbl := congrArg Prod.fst (Except.ok.inj hb)
      exact Or.inl (this ▸ hl)
  | cons slot rest ih =>
      intro n acc tbl n2 hb q pc hl
      unfold buildTable at hb
      cases hf : alookup factory slot.2.1 with
      | none =>
          rw [hf] at hb
          exact absurd hb (by simp)
      | some r =>
          rw [hf] at hb
          rcases ih (n + 1) _ tbl n2 hb q pc hl with hacc | ⟨⟨slot2, hmem, hq⟩, hp, hmv⟩
          · by_cases hqs : q = slot.1
            · rw [hqs, alookup_ainsert_self] at hacc
              have hpc : pc = mkPiece n slot.1 slot.2.2 r := (Option.some.inj hacc).symm
              refine Or.inr ⟨⟨slot, List.mem_cons_self slot rest, hqs.symm⟩, ?_, ?_⟩
              · rw [hpc]; exact hqs.symm
              · rw [hpc]; rfl
            · rw [alookup_ainsert_ne slot.1 q _ acc hqs] at hacc
              exact Or.inl hacc
          · exact Or.inr ⟨⟨slot2, List.mem_cons_of_mem slot hmem, hq⟩, hp, hmv⟩

theorem ainsert_length_none {κ α : Type} [DecidableEq κ] {q : κ} (v : α)
    {l : List (κ × α)} (h : alookup l q = none) :
    (ainsert q v l).length = l.length + 1 := by
  induction l with
  | nil => rfl
  | cons e rest ih =>
      by_cases he : e.1 = q
      · simp [alookup, he] at h
      · simp only [alookup, if_neg he] at h
        simp [ainsert, if_neg he, ih h]

theorem buildTable_length_nodup {factory : List (Nat × Rule)} :
    ∀ (layout : List (Sq × Nat × Nat)) (n : Nat) (acc tbl : List (Sq × PieceSt))
      (n2 : Nat),
      (layout.map (fun slot => slot.1)).Nodup →
      (∀ slot ∈ layout, alookup acc slot.1 = none) →
      buildTable factory layout n acc = Except.ok (tbl, n2) →
      tbl.length = acc.length + layout.length := by
  intro layout
  induction layout with
  | nil =>
      intro n acc tbl n2 hnd hpre hb
      unfold buildTable at hb
      have : acc = tbl := congrArg Prod.fst (Except.ok.inj hb)
      simp [← this]
  | cons slot rest ih =>
      intro n acc tbl n2 hnd hpre hb
      unfold buildTable at hb
      cases hf : alookup factory slot.2.1 with
      | none =>
          rw [hf] at hb
          exact absurd hb (by simp)
      | some r =>
          rw [hf] at hb
          obtain ⟨hhead, htail⟩ := List.nodup_cons.mp hnd
          have hne : ∀ slot2 ∈ rest, slot2.1 ≠ slot.1 := by
            intro slot2 hmem hc
            refine hhead ?_
            show slot.1 ∈ List.map (fun slot => slot.1) rest
            rw [← hc]
            exact List.mem_map_of_mem (fun slot => slot.1) hmem
          have hpre2 : ∀ slot2 ∈ rest,
              alookup (ainsert slot.1 (mkPiece n slot.1 slot.2.2 r) acc) slot2.1 = none := by
            intro slot2 hmem
            rw [alookup_ainsert_ne slot.1 slot2.1 _ acc (hne slot2 hmem)]
            exact hpre slot2 (List.mem_cons_of_mem slot hmem)
          have hlen := ih (n + 1) _ tbl n2 htail hpre2 hb
          rw [hlen, ainsert_length_none _ (hpre slot (List.mem_cons_self slot rest))]
          simp [Nat.add_assoc, Nat.add_comm 1]

theorem buildTable_entry_preserved {factory : List (Nat × Rule)} :
    ∀ (layout : List (Sq × Nat × Nat)) (n : Nat) (acc tbl : List (Sq × PieceSt))
      (n2 : Nat) (q : Sq) (pc : PieceSt),
      (∀ slot ∈ layout, slot.1 ≠ q) →
      alookup acc q = some pc →
      buildTable factory layout n acc = Except.ok (tbl, n2) →
      alookup tbl q = some pc := by
  intro layout
  induction layout with
  | nil =>
      intro n acc tbl n2 q pc hne hq hb
      unfold buildTable at hb
      have : acc = tbl := congrArg Prod.fst (Except.ok.inj hb)
      exact this ▸ hq
  | cons slot rest ih =>
      intro n acc tbl n2 q pc hne hq hb
      unfold buildTable at hb
      cases hf : alookup factory slot.2.1 with
      | none =>
          rw [hf] at hb
          exact absurd hb (by simp)
      | some r =>
          rw [hf] at hb
          refine ih (n + 1) _ tbl n2 q pc
            (fun slot2 hmem => hne slot2 (List.mem_cons_of_mem slot hmem)) ?_ hb
          rw [alookup_ainsert_ne slot.1 q _ acc
            (Ne.symm (hne slot (List.mem_cons_self slot rest)))]
          exact hq

theorem buildTable_nodup_entry {factory : List (Nat × Rule)} :
    ∀ (layout : List (Sq × Nat × Nat)) (n : Nat) (acc tbl : List (Sq × PieceSt))
      (n2 : Nat),
      (layout.map (fun slot => slot.1)).Nodup →
      buildTable factory layout n acc = Except.ok (tbl, n2) →
      ∀ slot ∈ layout, ∃ pc, alookup tbl slot.1 = some pc
        ∧ pc.p = slot.1 ∧ pc.s = slot.2.2 ∧ pc.movenum = 0 := by
  intro layout
  induction layout with
  | nil =>
      intro n acc tbl n2 hnd hb slot hmem
      simp at hmem
  | cons slot rest ih =>
      intro n acc tbl n2 hnd hb slot2 hmem
      unfold buildTable at hb
      cases hf : alookup factory slot.2.1 with
      | none =>
          rw [hf] at hb
          exact absurd hb (by simp)
      | some r =>
          rw [hf] at hb
          obtain ⟨hhead, htail⟩ := List.nodup_cons.mp hnd
          rcases List.mem_cons.mp hmem with hmem2 | hmem2
          · subst hmem2
            have hne : ∀ slot3 ∈ rest, slot3.1 ≠ slot2.1 := by
              intro slot3 hmem3 hc
              refine hhead ?_
              show slot2.1 ∈ List.map (fun slot => slot.1) rest
              rw [← hc]
              exact List.mem_map_of_mem (fun slot => slot.1) hmem3
            refine ⟨mkPiece n slot2.1 slot2.2.2 r, ?_, rfl, rfl, rfl⟩
            refine buildTable_entry_preserved rest (n + 1) _ tbl n2 slot2.1 _ hne ?_ hb
            exact alookup_ainsert_self slot2.1 _ acc
          · exact ih (n + 1) _ tbl n2 htail hb slot2 hmem2

theorem pieces_length_passOver (b : Board) :
    (passOver b).pieces.length = b.pieces.length := by
  have h := congrArg List.length (obsMap_passOver b)
  unfold obsMap at h
  simpa using h

/-- C5 (amended): construction succeeds exactly when every layout
entry's piece-kind is present in the factory — a missing kind propagates
the lookup error and no board is returned; on success one piece is
instantiated per layout entry with a later entry at the same square
replacing the earlier one, so the table holds exactly one piece per
distinct layout square (at that square, with move counter 0), and one
full derived-state recomputation then runs over all pieces; when the
layout squares are pairwise distinct, the table holds exactly one piece
per layout entry, carrying that entry's side. -/
theorem C5_construct_amended (w h : Int) (layout : List (Sq × Nat × Nat))
    (factory : List (Nat × Rule)) :
    (isOkE (Board.construct w h layout factory) = true
      ↔ ∀ slot ∈ layout, (alookup factory slot.2.1).isSome = true)
    ∧ ∀ bc, Board.construct w h layout factory = Except.ok bc →
        (∃ tbl n, buildTable factory layout 0 [] = Except.ok (tbl, n)
          ∧ bc = passOver ⟨w, h, tbl, [], [], 0⟩)
        ∧ (∀ slot ∈ layout, (alookup bc.pieces slot.1).isSome = true)
        ∧ (∀ q pc, alookup bc.pieces q = some pc →
            pc.p = q ∧ pc.movenum = 0 ∧ ∃ slot ∈ layout, slot.1 = q)
        ∧ ((layout.map (fun slot => slot.1)).Nodup →
            bc.pieces.length = layout.length
            ∧ ∀ slot ∈ layout, ∃ pc, alookup bc.pieces slot.1 = some pc
                ∧ pc.p = slot.1 ∧ pc.s = slot.2.2 ∧ pc.movenum = 0) := by
  constructor
  · rw [construct_isOk_eq]
    exact buildTable_isOk factory layout 0 []
  · intro bc hc
    obtain ⟨tbl, n, hb, hbc⟩ := construct_ok_elim hc
    have hobsF : obsMap bc.pieces = obsMap tbl := by
      rw [hbc]
      exact obsMap_passOver _
    have hobsR : obsMap tbl = obsMap bc.pieces := hobsF.symm
    refine ⟨⟨tbl, n, hb, hbc⟩, ?_, ?_, ?_⟩
    · intro slot hmem
      have hocc := buildTable_occupied layout 0 [] tbl n hb slot hmem
      cases hl : alookup tbl slot.1 with
      | none => rw [hl] at hocc; simp at hocc
      | some pc =>
          obtain ⟨pc2, hl2, _⟩ := obs_lookup_transport hobsF hl
          rw [hl2]
          rfl
    · intro q pc hl
      obtain ⟨pc2, hl2, _, hp2, _, hmv2⟩ := obs_lookup_transport hobsR hl
      rcases buildTable_keys layout 0 [] tbl n hb q pc2 hl2 with hacc | ⟨hslot, hp, hmv⟩
      · simp [alookup] at hacc
      · exact ⟨hp2.symm.trans hp, hmv2.symm.trans hmv, hslot⟩
    · intro hnd
      constructor
      · have h1 : bc.pieces.length = tbl.length := by
          rw [hbc]
          exact pieces_length_passOver _
        have h2 := buildTable_length_nodup layout 0 [] tbl n hnd
          (fun slot _ => rfl) hb
        rw [h1, h2]
        simp
      · intro slot hmem
        obtain ⟨pc, hl, hp, hs, hmv⟩ :=
          buildTable_nodup_entry layout 0 [] tbl n hnd hb slot hmem
        obtain ⟨pc2, hl2, _, hp2, hs2, hmv2⟩ := obs_lookup_transport hobsF hl
        exact ⟨pc2, hl2, hp2.trans hp, hs2.trans hs, hmv2.trans hmv⟩

/-- C5 counterexample: a layout with two entries at the same square
(both of a piece-kind the factory knows) constructs successfully, but
the position table holds a single piece — `pieces[slot.first] = ...`
overwrites, so construction does *not* put one piece per layout entry
into the table. -/
theorem C5_counterexample :
    (Board.construct 8 8 layoutDup factory0).toOption.map (fun bc => bc.pieces.length)
      = some 1
    ∧ layoutDup.length = 2 := by
  exact ⟨by decide, rfl⟩

/-- C5 witness: with the one-entry layout every kind is found and
construction succeeds with exactly one piece; with an unknown kind (3)
construction fails; and the succeeding board has one piece per entry. -/
theorem C5_witness :
    isOkE (Board.construct 8 8 layout1 factory0) = true
    ∧ isOkE (Board.construct 8 8 [(⟨0, 0⟩, 3, 0)] factory0) = false
    ∧ (Board.construct 8 8 layout1 factory0).toOption.map (fun bc => bc.pieces.length)
        = some 1 := by
  refine ⟨(C5_construct_amended 8 8 layout1 factory0).1.mpr (by decide), ?_, ?_⟩
  · cases hb : isOkE (Board.construct 8 8 [(⟨0, 0⟩, 3, 0)] factory0) with
    | false => rfl
    | true =>
        have h2 := (C5_construct_amended 8 8 [(⟨0, 0⟩, 3, 0)] factory0).1.mp hb
          (⟨0, 0⟩, 3, 0) (by decide)
        exact absurd h2 (by decide)
  · cases hc : Board.construct 8 8 layout1 factory0 with
    | error e =>
        have h3 := (C5_construct_amended 8 8 layout1 factory0).1.mpr (by decide)
        rw [hc] at h3
        simp [isOkE] at h3
    | ok bc =>
        have h4 := ((C5_construct_amended 8 8 layout1 factory0).2 bc hc).2.2.2 (by decide)
        simp [Except.toOption, h4.1]
        rfl

end ChessPP
